import Mathlib

/-!
Verification development for the ImpliedVolSurface repository.

The quantitative core of the repository (Black-Scholes call pricing, implied
volatility recovery by bracketed root finding, option-chain normalization,
surface building and grid interpolation) is embedded shallowly over the real
numbers.  The numerical routines the code calls from scipy and numpy
(the standard normal CDF, the Brent root finder, the scattered-data
interpolant) are modelled by their mathematical definitions or documented
contracts; everything written in the repository itself is translated
line by line.
-/

open MeasureTheory Real Set Filter

open scoped Classical

noncomputable section

/-- Density of the standard normal distribution; mathematical model of the
density underlying the scipy.stats.norm object used by the source. -/
def normPdf (x : ℝ) : ℝ := Real.exp (-x ^ 2 / 2) / Real.sqrt (2 * Real.pi)

/-- Cumulative distribution function of the standard normal distribution;
mathematical model of the scipy.stats.norm.cdf calls in the source. -/
def normCdf (x : ℝ) : ℝ := ∫ t in Set.Iic x, normPdf t

/-- The d1 term computed inline by bs_call_price in
src/modules/iv_surface_calculator.py (identical in src/pages/iv_surface_calculator.py
and src/streamlit_app.py). -/
def bs_d1 (S K T r sigma q : ℝ) : ℝ :=
  (Real.log (S / K) + (r - q + 0.5 * sigma ^ 2) * T) / (sigma * Real.sqrt T)

/-- The d2 term computed inline by bs_call_price in the source. -/
def bs_d2 (S K T r sigma q : ℝ) : ℝ := bs_d1 S K T r sigma q - sigma * Real.sqrt T

/-- Embedding of bs_call_price from src/modules/iv_surface_calculator.py, lines 7-10:
return S * np.exp(-q * T) * norm.cdf(d1) - K * np.exp(-r * T) * norm.cdf(d2). -/
def bs_call_price (S K T r sigma q : ℝ) : ℝ :=
  S * Real.exp (-q * T) * normCdf (bs_d1 S K T r sigma q)
    - K * Real.exp (-r * T) * normCdf (bs_d2 S K T r sigma q)

/-- Model of the documented contract of scipy.optimize.brentq, the external
root finder called by implied_volatility.  When the objective has the same
strict sign at both bracket endpoints the routine raises ValueError
(modelled as none, which the caller turns into NaN); otherwise, if the
objective has a root in the bracket, the Brent iteration converges to a
root inside [a, b] (modelled as some root); any remaining failure mode
(RuntimeError, exhausted iteration budget) is likewise modelled as none. -/
def brentq (f : ℝ → ℝ) (a b : ℝ) : Option ℝ :=
  if 0 < f a * f b then none
  else if h : ∃ x, x ∈ Set.Icc a b ∧ f x = 0 then some (Classical.choose h) else none

/-- Embedding of implied_volatility from src/modules/iv_surface_calculator.py,
lines 13-21: the guard returns NaN (modelled as none) for non-positive maturity
or price, and otherwise the result of brentq on the pricing objective over the
bracket [1e-6, 5], with the caught ValueError / RuntimeError mapped to NaN. -/
def implied_volatility (price S K T r q : ℝ) : Option ℝ :=
  if T ≤ 0 ∨ price ≤ 0 then none
  else brentq (fun sigma => bs_call_price S K T r sigma q - price) 1e-6 5

/-- The d1 term as written in section 4.1 of the spec. -/
def bsSpec_d1 (S K T r sigma q : ℝ) : ℝ :=
  (Real.log (S / K) + (r - q + sigma ^ 2 / 2) * T) / (sigma * Real.sqrt T)

/-- The d2 term as written in section 4.1 of the spec. -/
def bsSpec_d2 (S K T r sigma q : ℝ) : ℝ := bsSpec_d1 S K T r sigma q - sigma * Real.sqrt T

/-- The closed-form call price exactly as written in section 4.1 of the spec,
for comparison with the source translation bs_call_price. -/
def bsSpecPrice (S K T r sigma q : ℝ) : ℝ :=
  S * Real.exp (-q * T) * normCdf (bsSpec_d1 S K T r sigma q)
    - K * Real.exp (-r * T) * normCdf (bsSpec_d2 S K T r sigma q)

/-- Option side passed (as a capitalized string) to BlackScholes.option in
src/utils/black_scholes_model.py. -/
inductive OptionSide
  | Call
  | Put
deriving DecidableEq

/-- The d1 term of BlackScholes.calculate_df in src/utils/black_scholes_model.py,
lines 14-19.  Note this pricer takes no dividend yield. -/
def bsm_d1 (r s k t sigma : ℝ) : ℝ :=
  (Real.log (s / k) + (r + 0.5 * sigma ^ 2) * t) / (sigma * Real.sqrt t)

/-- The d2 term of BlackScholes.calculate_df. -/
def bsm_d2 (r s k t sigma : ℝ) : ℝ := bsm_d1 r s k t sigma - sigma * Real.sqrt t

/-- Rounding to two decimals, as in the final round(price, 2) of
BlackScholes.option.  Python rounds ties to even while this model rounds ties
up; the two agree except at exact ties and nothing proved below depends on tie
behaviour. -/
def roundTo2 (x : ℝ) : ℝ := ((round (x * 100) : ℤ) : ℝ) / 100

/-- The pre-rounding value computed inside BlackScholes.option,
src/utils/black_scholes_model.py lines 22-31. -/
def bsm_option_raw (r s k t sigma : ℝ) : OptionSide → ℝ
  | OptionSide.Call =>
      s * normCdf (bsm_d1 r s k t sigma)
        - k * Real.exp (-r * t) * normCdf (bsm_d2 r s k t sigma)
  | OptionSide.Put =>
      k * Real.exp (-r * t) * normCdf (-bsm_d2 r s k t sigma)
        - s * normCdf (-bsm_d1 r s k t sigma)

/-- Embedding of BlackScholes.option from src/utils/black_scholes_model.py,
lines 22-31: the closed-form call or put value, rounded to two decimals. -/
def bsm_option (r s k t sigma : ℝ) (side : OptionSide) : ℝ :=
  roundTo2 (bsm_option_raw r s k t sigma side)

/-- One row of the normalized options frame as read by the surface-building
stage: the columns strike, mid and timeToExpiration. -/
structure NormalizedRow where
  strike : ℝ
  mid : ℝ
  timeToExpiration : ℝ

/-- One output point of the surface builder: the row columns together with the
impliedVolatility (in percent) and moneyness columns the stage writes. -/
structure IVPoint where
  strike : ℝ
  mid : ℝ
  timeToExpiration : ℝ
  impliedVolatility : ℝ
  moneyness : ℝ

/-- Batch-level failure of the surface builder: the
ValueError NoValidIVsComputed raised at the end of calculate_iv_surface in
src/pages/iv_surface_calculator.py when the frame is empty after dropna,
called EmptySurface by the spec. -/
inductive SurfaceError
  | emptySurface
deriving DecidableEq

/-- Embedding of the implied-volatility stage of calculate_iv_surface from
src/pages/iv_surface_calculator.py, lines 96-116: solve per row, drop the NaN
(non-convergent) rows, scale the surviving volatilities to percent, attach the
moneyness column, and raise on an empty result. -/
def calculate_iv_points (rows : List NormalizedRow) (spot r q : ℝ) :
    Except SurfaceError (List IVPoint) :=
  let withIV := rows.map fun row =>
    (row, implied_volatility row.mid spot row.strike row.timeToExpiration r q)
  let dropped := withIV.filterMap fun rs => rs.2.map fun sigma => (rs.1, sigma)
  let pts := dropped.map fun rs =>
    { strike := rs.1.strike, mid := rs.1.mid, timeToExpiration := rs.1.timeToExpiration,
      impliedVolatility := rs.2 * 100, moneyness := rs.1.strike / spot }
  if pts.isEmpty then Except.error SurfaceError.emptySurface else Except.ok pts

/-- Declarative characterization of the surface builder's point set, used in
the theorem statements: one point per convergent row, with impliedVolatility
sigma times 100 and moneyness strike over spot. -/
def surfacePoints (rows : List NormalizedRow) (spot r q : ℝ) : List IVPoint :=
  rows.filterMap fun row =>
    (implied_volatility row.mid spot row.strike row.timeToExpiration r q).map fun sigma =>
      { strike := row.strike, mid := row.mid, timeToExpiration := row.timeToExpiration,
        impliedVolatility := sigma * 100, moneyness := row.strike / spot }

/-- One row of the options frame handed to compute_iv_surface, with the two
columns the stage writes modelled as optional so that a frame before the stage
has them absent (and a NaN produced by the solver is the absent value dropped
by dropna). -/
structure OptionRow where
  strike : ℝ
  mid : ℝ
  timeToExpiration : ℝ
  impliedVolatility : Option ℝ
  moneyness : Option ℝ

/-- The frame value produced by the body of compute_iv_surface from
src/modules/iv_surface_calculator.py, lines 24-38: assign the
impliedVolatility column from the per-row solver, dropna on that column
(inplace), scale it to percent, and assign the moneyness column. -/
def compute_iv_surface_frame (options_df : List OptionRow) (spot_price r dividend_yield : ℝ) :
    List OptionRow :=
  ((((options_df.map fun row =>
      { row with
        impliedVolatility :=
          implied_volatility row.mid spot_price row.strike row.timeToExpiration r
            dividend_yield }).filter
        fun row => row.impliedVolatility.isSome).map
      fun row =>
        { row with impliedVolatility := row.impliedVolatility.map fun iv => iv * 100 }).map
    fun row => { row with moneyness := some (row.strike / spot_price) })

/-- Embedding of compute_iv_surface from src/modules/iv_surface_calculator.py,
lines 24-38, with the pandas in-place mutation made explicit: the result pair
is (the returned frame, the state of the caller's options_df after the call).
The column assignments and the inplace dropna act on the argument frame
itself, and the function returns that same frame, so both components are the
mutated frame. -/
def compute_iv_surface (options_df : List OptionRow) (spot_price r dividend_yield : ℝ) :
    List OptionRow × List OptionRow :=
  (compute_iv_surface_frame options_df spot_price r dividend_yield,
   compute_iv_surface_frame options_df spot_price r dividend_yield)

/-- One raw option-chain quote as collected by calculate_iv_surface before
filtering: strike, bid, ask and the expiration expressed as whole calendar
days after the evaluation date (both dates are midnight-normalized pandas
timestamps, so the source's strict comparison expiration > today + 7 days is
the integer comparison 7 < days, and (expiration - today).dt.days is that
same integer). -/
structure RawQuote where
  strike : ℝ
  bid : ℝ
  ask : ℝ
  expirationDays : ℤ

/-- A quote that survived the filters, annotated with the derived columns. -/
structure NormalizedOption where
  strike : ℝ
  bid : ℝ
  ask : ℝ
  mid : ℝ
  daysToExpiration : ℤ
  timeToExpiration : ℝ
  moneyness : ℝ

/-- The derived columns of the chain normalizer: mid = (bid + ask) / 2,
daysToExpiration, timeToExpiration = days / 365 and moneyness = strike / spot
(src/pages/iv_surface_calculator.py lines 70, 82-83, 111;
src/streamlit_app.py line 52 computes moneyness at this stage). -/
def annotateQuote (spot : ℝ) (q : RawQuote) : NormalizedOption :=
  { strike := q.strike
    bid := q.bid
    ask := q.ask
    mid := (q.bid + q.ask) / 2
    daysToExpiration := q.expirationDays
    timeToExpiration := (q.expirationDays : ℝ) / 365
    moneyness := q.strike / spot }

/-- Embedding of the chain-normalization stage of calculate_iv_surface,
src/pages/iv_surface_calculator.py lines 47-90 (the same filters appear in
src/unnamed/part_000 lines 64-103): keep expirations strictly more than 7
calendar days ahead, keep quotes with positive bid and ask, attach the derived
columns, then keep strikes inside the window [spot min pct, spot max pct]. -/
def normalizeChain (quotes : List RawQuote) (spot minPct maxPct : ℝ) :
    List NormalizedOption :=
  (((quotes.filter fun q => decide (7 < q.expirationDays)).filter
      fun q => decide (0 < q.bid ∧ 0 < q.ask)).map (annotateQuote spot)).filter
    fun o => decide (spot * (minPct / 100) ≤ o.strike ∧ o.strike ≤ spot * (maxPct / 100))

/-- The same filter steps applied in a different order (strike window first,
then bid/ask, then the near-expiry filter, annotation last), written from the
spec's declarative step list to express its clause that the order of the
steps does not affect the result set. -/
def normalizeChainAlt (quotes : List RawQuote) (spot minPct maxPct : ℝ) :
    List NormalizedOption :=
  (((quotes.filter fun q =>
      decide (spot * (minPct / 100) ≤ q.strike ∧ q.strike ≤ spot * (maxPct / 100))).filter
      fun q => decide (0 < q.bid ∧ 0 < q.ask)).filter
    fun q => decide (7 < q.expirationDays)).map (annotateQuote spot)

/-- One scatter point handed to the grid interpolator: x is timeToExpiration,
y is the caller's y-axis value (moneyness or strike), z is the implied
volatility in percent. -/
structure IVPt where
  x : ℝ
  y : ℝ
  z : ℝ

/-- Failure of the grid interpolator on a zero-width axis, called
DegenerateSurface by the spec. -/
inductive GridError
  | degenerateSurface
deriving DecidableEq

/-- Embedding of np.linspace(a, b, n): n evenly spaced samples from a to b. -/
def linspace (a b : ℝ) (n : ℕ) : List ℝ :=
  (List.range n).map fun i : ℕ => a + (b - a) * (i : ℝ) / ((n : ℝ) - 1)

/-- Minimum of a list of reals, as X.min() on a nonempty numpy array. -/
def listMin : List ℝ → ℝ
  | [] => 0
  | x :: xs => xs.foldl min x

/-- Maximum of a list of reals, as X.max() on a nonempty numpy array. -/
def listMax : List ℝ → ℝ
  | [] => 0
  | x :: xs => xs.foldl max x

/-- np.nanmean over the input z values; the surface builder has already
dropped every NaN, so all inputs are finite and this is the arithmetic
mean. -/
def listMean (l : List ℝ) : ℝ := l.sum / l.length

/-- All points share one x value (zero-width time axis). -/
def allSameX (pts : List IVPt) : Prop := ∀ p ∈ pts, ∀ p2 ∈ pts, p.x = p2.x

/-- All points share one y value (zero-width strike or moneyness axis). -/
def allSameY (pts : List IVPt) : Prop := ∀ p ∈ pts, ∀ p2 ∈ pts, p.y = p2.y

/-- The regular grid produced by the interpolation branch. -/
structure VolSurfaceGrid where
  gridX : List ℝ
  gridY : List ℝ
  zGrid : List (List ℝ)

/-- Value of one grid node: the interpolant where it is defined, the mean of
the input z values where it is not (np.nan_to_num with nan = np.nanmean(Z)). -/
def gridNode (pts : List IVPt) (interp : ℝ → ℝ → Option ℝ) (x y : ℝ) : ℝ :=
  match interp x y with
  | some v => v
  | none => listMean (pts.map IVPt.z)

/-- Embedding of the grid-interpolation branch of src/streamlit_app.py lines
101-106 (the same code appears in src/unnamed/part_000 lines 125-130 and in
src/pages/iv_surface_calculator.py callers): 50-point linspace axes over the
data ranges, a meshgrid, scipy griddata with method linear, then nan_to_num
filling undefined nodes with the mean z.  Modelled from the spec: the
scattered-data interpolant computed inside scipy griddata is the parameter
interp, whose value is some v (the linear barycentric interpolant) at nodes
inside the convex hull of the points and none (NaN) where interpolation is
undefined; the QhullError scipy raises on a degenerate point set (all x equal
or all y equal), which the app leaves uncaught so that no grid is produced,
is the DegenerateSurface error. -/
def interpolateGrid (pts : List IVPt) (interp : ℝ → ℝ → Option ℝ) :
    Except GridError VolSurfaceGrid :=
  if allSameX pts ∨ allSameY pts then Except.error GridError.degenerateSurface
  else
    Except.ok
      { gridX := linspace (listMin (pts.map IVPt.x)) (listMax (pts.map IVPt.x)) 50
        gridY := linspace (listMin (pts.map IVPt.y)) (listMax (pts.map IVPt.y)) 50
        zGrid := (linspace (listMin (pts.map IVPt.y)) (listMax (pts.map IVPt.y)) 50).map
          fun y => (linspace (listMin (pts.map IVPt.x)) (listMax (pts.map IVPt.x)) 50).map
            fun x => gridNode pts interp x y }

lemma sqrt_two_pi_pos : 0 < Real.sqrt (2 * Real.pi) :=
  Real.sqrt_pos.mpr (by positivity)

lemma normPdf_pos (x : ℝ) : 0 < normPdf x :=
  div_pos (Real.exp_pos _) sqrt_two_pi_pos

lemma normPdf_eq_gauss (x : ℝ) :
    normPdf x = Real.exp (-(1 / 2 : ℝ) * x ^ 2) * (Real.sqrt (2 * Real.pi))⁻¹ := by
  rw [normPdf, div_eq_mul_inv]
  ring_nf

lemma continuous_normPdf : Continuous normPdf := by
  unfold normPdf
  fun_prop

lemma integrable_normPdf : Integrable normPdf := by
  have h := (integrable_exp_neg_mul_sq (b := (1 / 2 : ℝ)) (by norm_num)).mul_const
    (Real.sqrt (2 * Real.pi))⁻¹
  refine h.congr ?_
  filter_upwards with x
  rw [normPdf_eq_gauss]

lemma integrable_mul_normPdf : Integrable (fun t : ℝ => t * normPdf t) := by
  have h := (integrable_mul_exp_neg_mul_sq (b := (1 / 2 : ℝ)) (by norm_num)).mul_const
    (Real.sqrt (2 * Real.pi))⁻¹
  refine h.congr ?_
  filter_upwards with x
  rw [normPdf_eq_gauss]
  ring

lemma integral_normPdf : ∫ t, normPdf t = 1 := by
  have h : ∫ t : ℝ, Real.exp (-(1 / 2 : ℝ) * t ^ 2) = Real.sqrt (2 * Real.pi) := by
    rw [integral_gaussian]
    congr 1
    rw [div_div_eq_mul_div, div_one, mul_comm]
  calc ∫ t, normPdf t
      = ∫ t : ℝ, Real.exp (-(1 / 2 : ℝ) * t ^ 2) * (Real.sqrt (2 * Real.pi))⁻¹ := by
        congr 1
        funext t
        rw [normPdf_eq_gauss]
    _ = (∫ t : ℝ, Real.exp (-(1 / 2 : ℝ) * t ^ 2)) * (Real.sqrt (2 * Real.pi))⁻¹ :=
        integral_mul_right _ _
    _ = 1 := by
        rw [h, mul_inv_cancel₀ (ne_of_gt sqrt_two_pi_pos)]

lemma normPdf_neg (x : ℝ) : normPdf (-x) = normPdf x := by
  simp [normPdf]

lemma hasDerivAt_normPdf (x : ℝ) : HasDerivAt normPdf (-x * normPdf x) x := by
  have h0 : HasDerivAt (fun t : ℝ => t ^ 2) (2 * x) x := by
    simpa using hasDerivAt_pow 2 x
  have h1 : HasDerivAt (fun t : ℝ => -t ^ 2 / 2) (-x) x := by
    have h := (h0.neg).div_const 2
    convert h using 1
    ring
  have h2 : HasDerivAt (fun t : ℝ => Real.exp (-t ^ 2 / 2)) (Real.exp (-x ^ 2 / 2) * -x) x :=
    (Real.hasDerivAt_exp _).comp x h1
  have h3 := h2.div_const (Real.sqrt (2 * Real.pi))
  have hval : Real.exp (-x ^ 2 / 2) * -x / Real.sqrt (2 * Real.pi) = -x * normPdf x := by
    rw [normPdf]
    ring
  exact hval ▸ h3

lemma tendsto_normPdf_atBot : Tendsto normPdf atBot (nhds 0) := by
  have hsq : Tendsto (fun t : ℝ => t ^ 2) atBot atTop := by
    have h := (tendsto_pow_atTop (n := 2) (by norm_num : (2:ℕ) ≠ 0)).comp
      (tendsto_neg_atBot_atTop (β := ℝ))
    refine h.congr fun t => ?_
    simp [Function.comp]
  have h1 : Tendsto (fun t : ℝ => -t ^ 2 / 2) atBot atBot := by
    have ha : Tendsto (fun t : ℝ => t ^ 2 / 2) atBot atTop :=
      hsq.atTop_div_const (by norm_num)
    have hb := tendsto_neg_atTop_atBot.comp ha
    refine hb.congr fun t => ?_
    simp [Function.comp]
    ring
  have h2 : Tendsto (fun t : ℝ => Real.exp (-t ^ 2 / 2)) atBot (nhds 0) :=
    Real.tendsto_exp_atBot.comp h1
  have h3 := h2.div_const (Real.sqrt (2 * Real.pi))
  rw [zero_div] at h3
  exact h3

lemma hasDerivAt_normCdf (x : ℝ) : HasDerivAt normCdf (normPdf x) x := by
  have key : normCdf = fun y => normCdf 0 + ∫ t in (0:ℝ)..y, normPdf t := by
    funext y
    have h := intervalIntegral.integral_Iic_sub_Iic (μ := volume) (f := normPdf)
      integrable_normPdf.integrableOn integrable_normPdf.integrableOn (a := 0) (b := y)
    rw [normCdf, normCdf, ← h]
    ring
  rw [key]
  have h := intervalIntegral.integral_hasDerivAt_right
    (integrable_normPdf.intervalIntegrable (a := 0) (b := x))
    (continuous_normPdf.stronglyMeasurableAtFilter volume (nhds x))
    continuous_normPdf.continuousAt
  have hadd := (hasDerivAt_const x (normCdf 0)).add h
  simpa using hadd

lemma normCdf_nonneg (x : ℝ) : 0 ≤ normCdf x := by
  refine setIntegral_nonneg measurableSet_Iic ?_
  intro t _
  exact (normPdf_pos t).le

lemma normCdf_add_neg (x : ℝ) : normCdf x + normCdf (-x) = 1 := by
  have hrefl : normCdf (-x) = ∫ t in Set.Ioi x, normPdf t := by
    rw [normCdf]
    have h1 : ∫ t in Set.Iic (-x), normPdf t = ∫ t in Set.Iic (-x), normPdf (-t) := by
      congr 1
      funext t
      rw [normPdf_neg]
    rw [h1, integral_comp_neg_Iic, neg_neg]
  rw [hrefl, ← integral_normPdf]
  exact intervalIntegral.integral_Iic_add_Ioi
    integrable_normPdf.integrableOn integrable_normPdf.integrableOn

lemma normCdf_le_one (x : ℝ) : normCdf x ≤ 1 := by
  have := normCdf_add_neg x
  have := normCdf_nonneg (-x)
  linarith

/-- Gaussian tail bound used for positivity of the call price: the function
normPdf x + x * normCdf x is everywhere positive (for negative x this is the
classical Mills-type bound on the lower tail of the normal distribution). -/
lemma normPdf_add_mul_normCdf_pos (x : ℝ) : 0 < normPdf x + x * normCdf x := by
  rcases le_or_lt 0 x with hx | hx
  · have h1 : 0 ≤ x * normCdf x := mul_nonneg hx (normCdf_nonneg x)
    have := normPdf_pos x
    linarith
  · -- For x < 0 compare the tail integral with the integral of (-t) * normPdf t.
    have hneg : Integrable (fun t : ℝ => -t * normPdf t) := by
      have h := integrable_mul_normPdf.neg
      refine h.congr ?_
      filter_upwards with t
      simp
    have hkey : ∫ t in Set.Iic x, -t * normPdf t = normPdf x := by
      have hd : ∀ t ∈ Set.Iic x, HasDerivAt normPdf (-t * normPdf t) t :=
        fun t _ => hasDerivAt_normPdf t
      have h := integral_Iic_of_hasDerivAt_of_tendsto' hd hneg.integrableOn
        tendsto_normPdf_atBot
      simpa using h
    have hint1 : IntegrableOn (fun t : ℝ => -t * normPdf t) (Set.Iic x) :=
      hneg.integrableOn
    have hint2 : IntegrableOn (fun t : ℝ => -x * normPdf t) (Set.Iic x) :=
      (integrable_normPdf.const_mul (-x)).integrableOn
    have hlt : ∫ t in Set.Iic x, -x * normPdf t < ∫ t in Set.Iic x, -t * normPdf t := by
      have hpos : 0 < ∫ t in Set.Iic x, (-t * normPdf t - -x * normPdf t) := by
        rw [setIntegral_pos_iff_support_of_nonneg_ae]
        · have hsub : Set.Iio x ⊆
              (Function.support fun t => -t * normPdf t - -x * normPdf t) ∩ Set.Iic x := by
            intro t ht
            have htx : t < x := mem_Iio.mp ht
            constructor
            · have h1 : 0 < (x - t) * normPdf t :=
                mul_pos (by linarith) (normPdf_pos t)
              have h2 : -t * normPdf t - -x * normPdf t = (x - t) * normPdf t := by ring
              simp only [Function.mem_support, h2]
              exact ne_of_gt h1
            · exact le_of_lt htx
          calc (0:ENNReal) < volume (Set.Iio x) := by simp
            _ ≤ _ := measure_mono hsub
        · filter_upwards [ae_restrict_mem measurableSet_Iic] with t ht
          have htx : t ≤ x := mem_Iic.mp ht
          have h1 : 0 ≤ (x - t) * normPdf t :=
            mul_nonneg (by linarith) (normPdf_pos t).le
          have h2 : -t * normPdf t - -x * normPdf t = (x - t) * normPdf t := by ring
          rw [Pi.zero_apply]
          linarith [h2 ▸ h1]
        · exact hint1.sub hint2
      have hsplit := integral_sub hint1 hint2
      rw [hsplit] at hpos
      linarith
    have hconst : ∫ t in Set.Iic x, -x * normPdf t = -x * normCdf x := by
      rw [normCdf]
      exact integral_mul_left (-x) normPdf
    rw [hconst, hkey] at hlt
    linarith

lemma normPdf_ne_zero (x : ℝ) : normPdf x ≠ 0 := ne_of_gt (normPdf_pos x)

/-- The ratio of the normal CDF to the normal density is strictly increasing;
this is the analytic heart of the positivity of the Black-Scholes call price. -/
lemma strictMono_normCdf_div_normPdf : StrictMono (fun x => normCdf x / normPdf x) := by
  apply strictMono_of_deriv_pos
  intro x
  have hd : HasDerivAt (fun x => normCdf x / normPdf x)
      ((normPdf x * normPdf x - normCdf x * (-x * normPdf x)) / normPdf x ^ 2) x :=
    (hasDerivAt_normCdf x).div (hasDerivAt_normPdf x) (normPdf_ne_zero x)
  rw [hd.deriv]
  have hnum : 0 < normPdf x * normPdf x - normCdf x * (-x * normPdf x) := by
    have h1 : normPdf x * normPdf x - normCdf x * (-x * normPdf x)
        = normPdf x * (normPdf x + x * normCdf x) := by ring
    rw [h1]
    exact mul_pos (normPdf_pos x) (normPdf_add_mul_normCdf_pos x)
  exact div_pos hnum (pow_pos (normPdf_pos x) 2)

lemma bs_d1_eq_linear (S K T r q : ℝ) (hT : 0 ≤ T) (sigma : ℝ) :
    bs_d1 S K T r sigma q =
      (Real.log (S / K) + (r - q) * T) / Real.sqrt T * sigma⁻¹ + Real.sqrt T / 2 * sigma := by
  rcases eq_or_ne sigma 0 with h | h
  · subst h
    simp [bs_d1]
  · rcases eq_or_ne (Real.sqrt T) 0 with h2 | h2
    · have hT0 : T = 0 := by
        have := Real.sqrt_eq_zero hT
        exact this.mp h2
      simp [bs_d1, hT0, h2]
    · have hs : Real.sqrt T * Real.sqrt T = T := Real.mul_self_sqrt hT
      rw [bs_d1]
      field_simp
      linear_combination (-(sigma ^ 3 * Real.sqrt T)) * hs

/-- The density identity behind vega: K e^(-rT) times the normal density at d2
equals S e^(-qT) times the normal density at d1. -/
lemma bs_pdf_eq (S K T r q sigma : ℝ) (hS : 0 < S) (hK : 0 < K) (hT : 0 < T)
    (hσ : sigma ≠ 0) :
    K * Real.exp (-r * T) * normPdf (bs_d2 S K T r sigma q)
      = S * Real.exp (-q * T) * normPdf (bs_d1 S K T r sigma q) := by
  have hsT : Real.sqrt T ≠ 0 := ne_of_gt (Real.sqrt_pos.mpr hT)
  have hTs : Real.sqrt T * Real.sqrt T = T := Real.mul_self_sqrt hT.le
  have hd1m : bs_d1 S K T r sigma q * (sigma * Real.sqrt T)
      = Real.log (S / K) + (r - q + 0.5 * sigma ^ 2) * T := by
    rw [bs_d1]
    field_simp
  set a := bs_d1 S K T r sigma q with ha
  set b := bs_d2 S K T r sigma q with hb
  have hbval : b = a - sigma * Real.sqrt T := by
    rw [hb, bs_d2, ha]
  have key : a ^ 2 - b ^ 2 = 2 * (Real.log (S / K) + (r - q) * T) := by
    rw [hbval]
    have expand : a ^ 2 - (a - sigma * Real.sqrt T) ^ 2
        = 2 * (a * (sigma * Real.sqrt T)) - sigma ^ 2 * (Real.sqrt T * Real.sqrt T) := by
      ring
    rw [expand, hd1m, hTs]
    ring
  have hlog : Real.log (S / K) = Real.log S - Real.log K :=
    Real.log_div (ne_of_gt hS) (ne_of_gt hK)
  have hexp : Real.log K + -r * T + -b ^ 2 / 2 = Real.log S + -q * T + -a ^ 2 / 2 := by
    rw [hlog] at key
    linarith
  calc K * Real.exp (-r * T) * normPdf b
      = Real.exp (Real.log K + -r * T + -b ^ 2 / 2) * (Real.sqrt (2 * Real.pi))⁻¹ := by
        rw [Real.exp_add, Real.exp_add, Real.exp_log hK, normPdf, div_eq_mul_inv]
        ring
    _ = Real.exp (Real.log S + -q * T + -a ^ 2 / 2) * (Real.sqrt (2 * Real.pi))⁻¹ := by
        rw [hexp]
    _ = S * Real.exp (-q * T) * normPdf a := by
        rw [Real.exp_add, Real.exp_add, Real.exp_log hS, normPdf, div_eq_mul_inv]
        ring

/-- Positivity of the embedded call price on the domain the spec calls valid. -/
lemma bs_call_price_pos (S K T r q sigma : ℝ) (hS : 0 < S) (hK : 0 < K) (hT : 0 < T)
    (hσ : 0 < sigma) : 0 < bs_call_price S K T r sigma q := by
  have hba : bs_d2 S K T r sigma q < bs_d1 S K T r sigma q := by
    rw [bs_d2]
    have hσT : 0 < sigma * Real.sqrt T := mul_pos hσ (Real.sqrt_pos.mpr hT)
    linarith
  have hmono : normCdf (bs_d2 S K T r sigma q) / normPdf (bs_d2 S K T r sigma q)
      < normCdf (bs_d1 S K T r sigma q) / normPdf (bs_d1 S K T r sigma q) :=
    strictMono_normCdf_div_normPdf hba
  have hvega := bs_pdf_eq S K T r q sigma hS hK hT (ne_of_gt hσ)
  have hpa := normPdf_ne_zero (bs_d1 S K T r sigma q)
  have hpb := normPdf_ne_zero (bs_d2 S K T r sigma q)
  have hWpos : 0 < S * Real.exp (-q * T) * normPdf (bs_d1 S K T r sigma q) :=
    mul_pos (mul_pos hS (Real.exp_pos _)) (normPdf_pos _)
  have hlt := mul_lt_mul_of_pos_left hmono hWpos
  have h1 : S * Real.exp (-q * T) * normPdf (bs_d1 S K T r sigma q)
      * (normCdf (bs_d1 S K T r sigma q) / normPdf (bs_d1 S K T r sigma q))
      = S * Real.exp (-q * T) * normCdf (bs_d1 S K T r sigma q) := by
    field_simp
    ring
  have h2 : S * Real.exp (-q * T) * normPdf (bs_d1 S K T r sigma q)
      * (normCdf (bs_d2 S K T r sigma q) / normPdf (bs_d2 S K T r sigma q))
      = K * Real.exp (-r * T) * normCdf (bs_d2 S K T r sigma q) := by
    rw [← hvega]
    field_simp
    ring
  rw [h1, h2] at hlt
  rw [bs_call_price]
  linarith

/-- The price is strictly increasing in sigma on positive volatilities
(vega is positive); this is the monotonicity property of section 8 of the spec. -/
lemma bs_strictMonoOn (S K T r q : ℝ) (hS : 0 < S) (hK : 0 < K) (hT : 0 < T) :
    StrictMonoOn (fun sigma => bs_call_price S K T r sigma q) (Set.Ioi (0:ℝ)) := by
  have hderiv : ∀ σ ∈ Set.Ioi (0:ℝ),
      HasDerivAt (fun sigma => bs_call_price S K T r sigma q)
        (S * Real.exp (-q * T) * normPdf (bs_d1 S K T r σ q) * Real.sqrt T) σ := by
    intro σ hσ
    have hσ0 : σ ≠ 0 := ne_of_gt (mem_Ioi.mp hσ)
    set A := (Real.log (S / K) + (r - q) * T) / Real.sqrt T with hA
    set B := Real.sqrt T / 2 with hB
    have hd1 : HasDerivAt (fun s => bs_d1 S K T r s q) (A * -(σ ^ 2)⁻¹ + B) σ := by
      have hfe : (fun s => bs_d1 S K T r s q) = fun s : ℝ => A * s⁻¹ + B * s := by
        funext s
        rw [bs_d1_eq_linear S K T r q hT.le s, hA, hB]
      rw [hfe]
      have hpa := (hasDerivAt_inv hσ0).const_mul A
      have hpb := (hasDerivAt_id σ).const_mul B
      have hsum := hpa.add hpb
      simpa using hsum
    have hd2 : HasDerivAt (fun s => bs_d2 S K T r s q) (A * -(σ ^ 2)⁻¹ + B - Real.sqrt T) σ := by
      have hlin := hd1.sub ((hasDerivAt_id σ).mul_const (Real.sqrt T))
      have hfe : (fun s => bs_d2 S K T r s q)
          = fun s => bs_d1 S K T r s q - s * Real.sqrt T := by
        funext s
        rw [bs_d2]
      rw [hfe]
      simpa using hlin
    have hc1 : HasDerivAt (fun s => normCdf (bs_d1 S K T r s q))
        (normPdf (bs_d1 S K T r σ q) * (A * -(σ ^ 2)⁻¹ + B)) σ :=
      (hasDerivAt_normCdf _).comp σ hd1
    have hc2 : HasDerivAt (fun s => normCdf (bs_d2 S K T r s q))
        (normPdf (bs_d2 S K T r σ q) * (A * -(σ ^ 2)⁻¹ + B - Real.sqrt T)) σ :=
      (hasDerivAt_normCdf _).comp σ hd2
    have hp := (hc1.const_mul (S * Real.exp (-q * T))).sub
      (hc2.const_mul (K * Real.exp (-r * T)))
    have hfe : (fun sigma => bs_call_price S K T r sigma q)
        = fun s => S * Real.exp (-q * T) * normCdf (bs_d1 S K T r s q)
            - K * Real.exp (-r * T) * normCdf (bs_d2 S K T r s q) := by
      funext s
      rw [bs_call_price]
    rw [hfe]
    have hvega := bs_pdf_eq S K T r q σ hS hK hT hσ0
    convert hp using 1
    have hBT : Real.sqrt T = 2 * B := by
      rw [hB]
      ring
    calc S * Real.exp (-q * T) * normPdf (bs_d1 S K T r σ q) * Real.sqrt T
        = S * Real.exp (-q * T) * (normPdf (bs_d1 S K T r σ q) * (A * -(σ ^ 2)⁻¹ + B))
          - S * Real.exp (-q * T) * normPdf (bs_d1 S K T r σ q)
            * (A * -(σ ^ 2)⁻¹ + B - Real.sqrt T) := by
          ring
      _ = S * Real.exp (-q * T) * (normPdf (bs_d1 S K T r σ q) * (A * -(σ ^ 2)⁻¹ + B))
          - K * Real.exp (-r * T) * (normPdf (bs_d2 S K T r σ q)
            * (A * -(σ ^ 2)⁻¹ + B - Real.sqrt T)) := by
          rw [← hvega]
          ring
  apply strictMonoOn_of_deriv_pos (convex_Ioi 0)
  · intro σ hσ
    exact ((hderiv σ hσ).continuousAt).continuousWithinAt
  · intro σ hσ
    rw [interior_Ioi] at hσ
    rw [(hderiv σ hσ).deriv]
    exact mul_pos (mul_pos (mul_pos hS (Real.exp_pos _)) (normPdf_pos _))
      (Real.sqrt_pos.mpr hT)

/-- Upper bound on the call price: the discounted spot dominates, since the first
normal CDF is at most one and the second term is nonnegative. -/
lemma bs_call_price_le (S K T r q sigma : ℝ) (hS : 0 ≤ S) (hK : 0 ≤ K) :
    bs_call_price S K T r sigma q ≤ S * Real.exp (-q * T) := by
  rw [bs_call_price]
  have h1 : S * Real.exp (-q * T) * normCdf (bs_d1 S K T r sigma q) ≤ S * Real.exp (-q * T) := by
    have hpos : 0 ≤ S * Real.exp (-q * T) := mul_nonneg hS (Real.exp_pos _).le
    calc S * Real.exp (-q * T) * normCdf (bs_d1 S K T r sigma q)
        ≤ S * Real.exp (-q * T) * 1 := by
          exact mul_le_mul_of_nonneg_left (normCdf_le_one _) hpos
      _ = S * Real.exp (-q * T) := mul_one _
  have h2 : 0 ≤ K * Real.exp (-r * T) * normCdf (bs_d2 S K T r sigma q) :=
    mul_nonneg (mul_nonneg hK (Real.exp_pos _).le) (normCdf_nonneg _)
  linarith

lemma brentq_eq_some (f : ℝ → ℝ) (a b x : ℝ) (h : brentq f a b = some x) :
    x ∈ Set.Icc a b ∧ f x = 0 := by
  rw [brentq] at h
  by_cases h1 : 0 < f a * f b
  · rw [if_pos h1] at h
    exact Option.noConfusion h
  · rw [if_neg h1] at h
    by_cases h2 : ∃ y, y ∈ Set.Icc a b ∧ f y = 0
    · rw [dif_pos h2] at h
      have hx := Option.some.inj h
      rw [← hx]
      exact Classical.choose_spec h2
    · rw [dif_neg h2] at h
      exact Option.noConfusion h

/-- On the round-trip domain the solver recovers sigma exactly: the pricing
objective is strictly monotone, changes sign across the bracket, and sigma
itself is its unique root. -/
lemma roundtrip_exact (S K T r q sigma : ℝ) (hS : 0 < S) (hK : 0 < K) (hT : 0 < T)
    (hσl : 0.01 ≤ sigma) (hσu : sigma ≤ 3) :
    implied_volatility (bs_call_price S K T r sigma q) S K T r q = some sigma := by
  have hσ : (0:ℝ) < sigma := lt_of_lt_of_le (by norm_num) hσl
  have hppos := bs_call_price_pos S K T r q sigma hS hK hT hσ
  have hmono := bs_strictMonoOn S K T r q hS hK hT
  have hlowmem : (1e-6:ℝ) ∈ Set.Ioi (0:ℝ) := by norm_num
  have hhimem : (5:ℝ) ∈ Set.Ioi (0:ℝ) := by norm_num
  have hσmem : sigma ∈ Set.Ioi (0:ℝ) := hσ
  have hf1 : bs_call_price S K T r 1e-6 q < bs_call_price S K T r sigma q := by
    have h := hmono hlowmem hσmem ((by norm_num : (1e-6:ℝ) < 0.01).trans_le hσl)
    exact h
  have hf5 : bs_call_price S K T r sigma q < bs_call_price S K T r 5 q := by
    have h := hmono hσmem hhimem (by linarith)
    exact h
  rw [implied_volatility, if_neg (by push_neg; exact ⟨hT, hppos⟩)]
  rw [brentq, if_neg (by push_neg; nlinarith)]
  have hex : ∃ x, x ∈ Set.Icc (1e-6:ℝ) 5
      ∧ (fun s => bs_call_price S K T r s q - bs_call_price S K T r sigma q) x = 0 := by
    refine ⟨sigma, ⟨?_, ?_⟩, by simp⟩
    · calc (1e-6:ℝ) ≤ 0.01 := by norm_num
        _ ≤ sigma := hσl
    · linarith
  rw [dif_pos hex]
  congr 1
  have hspec := Classical.choose_spec hex
  have hroot : bs_call_price S K T r (Classical.choose hex) q
      = bs_call_price S K T r sigma q := by
    have h2 := hspec.2
    simp only at h2
    linarith
  have hxmem : Classical.choose hex ∈ Set.Ioi (0:ℝ) := by
    have h1 := hspec.1.1
    have : (0:ℝ) < 1e-6 := by norm_num
    exact lt_of_lt_of_le this h1
  exact hmono.injOn hxmem hσmem hroot

/-- C2: the pricer computes the Black-Scholes closed-form value of a European
call: for every S > 0, K > 0, T > 0, sigma > 0 and real r and q, the source's
bs_call_price equals S e^(-qT) N(d1) - K e^(-rT) N(d2) with d1 and d2 as in the
spec and N the standard normal CDF. -/
theorem pricer_matches_spec_formula (S K T r sigma q : ℝ)
    (hS : 0 < S) (hK : 0 < K) (hT : 0 < T) (hσ : 0 < sigma) :
    bs_call_price S K T r sigma q = bsSpecPrice S K T r sigma q := by
  have hd1 : bs_d1 S K T r sigma q = bsSpec_d1 S K T r sigma q := by
    rw [bs_d1, bsSpec_d1]
    congr 1
    ring
  rw [bs_call_price, bsSpecPrice, bs_d2, bsSpec_d2, hd1]

/-- Witness for C2 at the concrete parameter tuple (1, 1, 1, 0, 1, 0). -/
theorem pricer_matches_spec_formula_witness :
    bs_call_price 1 1 1 0 1 0 = bsSpecPrice 1 1 1 0 1 0 :=
  pricer_matches_spec_formula 1 1 1 0 1 0 (by norm_num) (by norm_num) (by norm_num)
    (by norm_num)

/-- C1: round-trip of pricing and IV recovery: for every parameter tuple with
S > 0, K > 0, sigma in [0.01, 3] and T in [0.01, 5], the implied-volatility
solver applied to the price produced by the call pricer returns a value (not
NoConvergence) within 1e-4 of the original sigma (in the real-number model the
recovery is exact). -/
theorem roundtrip_recovers_sigma (S K T r q sigma : ℝ) (hS : 0 < S) (hK : 0 < K)
    (hσ : sigma ∈ Set.Icc (0.01:ℝ) 3) (hT : T ∈ Set.Icc (0.01:ℝ) 5) :
    ∃ x, implied_volatility (bs_call_price S K T r sigma q) S K T r q = some x
      ∧ |x - sigma| ≤ 1e-4 := by
  refine ⟨sigma, roundtrip_exact S K T r q sigma hS hK
    (lt_of_lt_of_le (by norm_num) hT.1) hσ.1 hσ.2, ?_⟩
  simp only [sub_self, abs_zero]
  norm_num

/-- Witness for C1 at the concrete tuple S = K = T = sigma = 1, r = q = 0. -/
theorem roundtrip_recovers_sigma_witness :
    ∃ x, implied_volatility (bs_call_price 1 1 1 0 1 0) 1 1 1 0 0 = some x
      ∧ |x - 1| ≤ 1e-4 :=
  roundtrip_recovers_sigma 1 1 1 0 0 1 (by norm_num) (by norm_num)
    ⟨by norm_num, by norm_num⟩ ⟨by norm_num, by norm_num⟩

/-- C3: the implied-volatility solver returns NoConvergence (modelled as none,
never an exception and never a numeric value) whenever T is non-positive or the
observed price is non-positive, in which case no root finding is attempted, and
also whenever the objective has the same strict sign at both bracket endpoints
1e-6 and 5 (the iteration-budget failure mode of the root finder is part of the
brentq model and likewise maps to none). -/
theorem implied_volatility_failure_policy (p S K T r q : ℝ) :
    ((T ≤ 0 ∨ p ≤ 0) → implied_volatility p S K T r q = none) ∧
    (0 < T → 0 < p →
      0 < (bs_call_price S K T r 1e-6 q - p) * (bs_call_price S K T r 5 q - p) →
      implied_volatility p S K T r q = none) := by
  constructor
  · intro h
    rw [implied_volatility, if_pos h]
  · intro hT hp hsign
    rw [implied_volatility, if_neg (by push_neg; exact ⟨hT, hp⟩), brentq, if_pos hsign]

/-- Witness for C3: with T = 0 the solver refuses immediately, and with an
observed price of 3 on a spot of 1 (above the maximal attainable call price)
the objective is negative at both bracket endpoints, so the solver reports
NoConvergence. -/
theorem implied_volatility_failure_policy_witness :
    implied_volatility 1 1 1 0 0 0 = none ∧ implied_volatility 3 1 1 1 0 0 = none := by
  constructor
  · exact (implied_volatility_failure_policy 1 1 1 0 0 0).1 (Or.inl le_rfl)
  · apply (implied_volatility_failure_policy 3 1 1 1 0 0).2 one_pos (by norm_num)
    have hle1 : bs_call_price 1 1 1 0 1e-6 0 ≤ 1 := by
      have h := bs_call_price_le 1 1 1 0 0 1e-6 (by norm_num) (by norm_num)
      simpa using h
    have hle5 : bs_call_price 1 1 1 0 5 0 ≤ 1 := by
      have h := bs_call_price_le 1 1 1 0 0 5 (by norm_num) (by norm_num)
      simpa using h
    have h1 : bs_call_price 1 1 1 0 1e-6 0 - 3 < 0 := by linarith
    have h5 : bs_call_price 1 1 1 0 5 0 - 3 < 0 := by linarith
    exact mul_pos_of_neg_of_neg h1 h5

lemma bsm_parity_raw (r s k t sigma : ℝ) :
    bsm_option_raw r s k t sigma OptionSide.Call
        - bsm_option_raw r s k t sigma OptionSide.Put
      = s - k * Real.exp (-r * t) := by
  have h1 := normCdf_add_neg (bsm_d1 r s k t sigma)
  have h2 := normCdf_add_neg (bsm_d2 r s k t sigma)
  simp only [bsm_option_raw]
  linear_combination s * h1 - k * Real.exp (-r * t) * h2

lemma roundTo2_abs_sub (x : ℝ) : |roundTo2 x - x| ≤ 1 / 200 := by
  rw [roundTo2]
  have h := abs_sub_round (x * 100)
  rw [abs_sub_comm] at h
  have heq : ((round (x * 100) : ℤ) : ℝ) / 100 - x
      = (((round (x * 100) : ℤ) : ℝ) - x * 100) / 100 := by
    ring
  rw [heq, abs_div]
  have habs : |(100:ℝ)| = 100 := by norm_num
  rw [habs]
  linarith

/-- C8 counterexample: at r = 0, S = K = T = sigma = 1 the call and the put
returned by BlackScholes.option coincide, so their difference is 0, while the
claimed right-hand side S e^(-qT) - K e^(-rT) evaluated with dividend yield
q = 1 is e^(-1) - 1, which is at most -1/2; the claimed parity with a
dividend-yield term therefore fails (the pricer takes no dividend yield). -/
theorem put_call_parity_counterexample :
    bsm_option 0 1 1 1 1 OptionSide.Call - bsm_option 0 1 1 1 1 OptionSide.Put = 0
      ∧ 1 * Real.exp (-1 * 1) - 1 * Real.exp (-0 * 1) ≤ -(1/2) := by
  constructor
  · have hd1 : bsm_d1 0 1 1 1 1 = 1/2 := by
      rw [bsm_d1]
      norm_num
    have hd2 : bsm_d2 0 1 1 1 1 = -(1/2) := by
      rw [bsm_d2, hd1]
      norm_num
    have hcp : bsm_option_raw 0 1 1 1 1 OptionSide.Call
        = bsm_option_raw 0 1 1 1 1 OptionSide.Put := by
      simp only [bsm_option_raw, hd1, hd2]
      norm_num [Real.exp_zero]
    rw [bsm_option, bsm_option, hcp, sub_self]
  · have h1 : (2:ℝ) < Real.exp 1 := by
      have h := Real.exp_one_gt_d9
      linarith
    have h2 : Real.exp (-1 : ℝ) = 1 / Real.exp 1 := by
      rw [Real.exp_neg, inv_eq_one_div]
    have h3 : 1 / Real.exp 1 ≤ 1 / 2 :=
      one_div_le_one_div_of_le (by norm_num) h1.le
    have h0 : Real.exp (-0 * (1:ℝ)) = 1 := by
      norm_num
    rw [h0]
    have hm : (-1 : ℝ) * 1 = -1 := by norm_num
    rw [hm, h2]
    linarith

/-- C8 amended: BlackScholes.option takes no dividend yield (equivalently q = 0);
for all parameters the pre-rounding call minus put equals S - K e^(-rT)
exactly, and the returned two-decimal-rounded prices satisfy the same identity
to within 0.01. -/
theorem put_call_parity_amended (r s k t sigma : ℝ) :
    bsm_option_raw r s k t sigma OptionSide.Call
        - bsm_option_raw r s k t sigma OptionSide.Put
        = s - k * Real.exp (-r * t)
      ∧ |bsm_option r s k t sigma OptionSide.Call - bsm_option r s k t sigma OptionSide.Put
          - (s - k * Real.exp (-r * t))| ≤ 1 / 100 := by
  refine ⟨bsm_parity_raw r s k t sigma, ?_⟩
  have h1 := roundTo2_abs_sub (bsm_option_raw r s k t sigma OptionSide.Call)
  have h2 := roundTo2_abs_sub (bsm_option_raw r s k t sigma OptionSide.Put)
  have hp := bsm_parity_raw r s k t sigma
  rw [bsm_option, bsm_option, ← hp]
  have heq : roundTo2 (bsm_option_raw r s k t sigma OptionSide.Call)
        - roundTo2 (bsm_option_raw r s k t sigma OptionSide.Put)
        - (bsm_option_raw r s k t sigma OptionSide.Call
          - bsm_option_raw r s k t sigma OptionSide.Put)
      = (roundTo2 (bsm_option_raw r s k t sigma OptionSide.Call)
          - bsm_option_raw r s k t sigma OptionSide.Call)
        - (roundTo2 (bsm_option_raw r s k t sigma OptionSide.Put)
          - bsm_option_raw r s k t sigma OptionSide.Put) := by
    ring
  rw [heq]
  calc |(roundTo2 (bsm_option_raw r s k t sigma OptionSide.Call)
          - bsm_option_raw r s k t sigma OptionSide.Call)
        - (roundTo2 (bsm_option_raw r s k t sigma OptionSide.Put)
          - bsm_option_raw r s k t sigma OptionSide.Put)|
      ≤ |roundTo2 (bsm_option_raw r s k t sigma OptionSide.Call)
          - bsm_option_raw r s k t sigma OptionSide.Call|
        + |roundTo2 (bsm_option_raw r s k t sigma OptionSide.Put)
          - bsm_option_raw r s k t sigma OptionSide.Put| :=
        abs_sub _ _
    _ ≤ 1 / 200 + 1 / 200 := add_le_add h1 h2
    _ = 1 / 100 := by norm_num

lemma calculate_iv_points_eq (rows : List NormalizedRow) (spot r q : ℝ) :
    calculate_iv_points rows spot r q =
      if (surfacePoints rows spot r q).isEmpty then Except.error SurfaceError.emptySurface
      else Except.ok (surfacePoints rows spot r q) := by
  have hfuse : ((rows.map fun row =>
        (row, implied_volatility row.mid spot row.strike row.timeToExpiration r q)).filterMap
          fun rs => rs.2.map fun sigma => (rs.1, sigma)).map
        (fun rs : NormalizedRow × ℝ =>
          ({ strike := rs.1.strike, mid := rs.1.mid,
             timeToExpiration := rs.1.timeToExpiration,
             impliedVolatility := rs.2 * 100, moneyness := rs.1.strike / spot } : IVPoint))
      = surfacePoints rows spot r q := by
    rw [List.filterMap_map, List.map_filterMap, surfacePoints]
    congr 1
    funext row
    simp only [Function.comp_apply, Option.map_map]
    cases implied_volatility row.mid spot row.strike row.timeToExpiration r q with
    | none => rfl
    | some sigma => rfl
  rw [calculate_iv_points]
  rw [hfuse]

lemma compute_iv_surface_frame_eq (options_df : List OptionRow) (spot r q : ℝ) :
    compute_iv_surface_frame options_df spot r q
      = options_df.filterMap fun row =>
          (implied_volatility row.mid spot row.strike row.timeToExpiration r q).map
            fun sigma =>
              { row with
                impliedVolatility := some (sigma * 100)
                moneyness := some (row.strike / spot) } := by
  induction options_df with
  | nil => rfl
  | cons head tail ih =>
    rw [compute_iv_surface_frame] at ih ⊢
    cases hh : implied_volatility head.mid spot head.strike head.timeToExpiration r q with
    | none =>
      simp only [List.map_cons, List.filter_cons, hh, Option.isSome_none, Bool.false_eq_true,
        if_false, List.filterMap_cons, Option.map_none']
      exact ih
    | some sigma =>
      simp only [List.map_cons, List.filter_cons, hh, Option.isSome_some, if_true,
        List.filterMap_cons, Option.map_some']
      rw [ih]

/-- C4: for every non-empty input set of normalized options, the surface
builder returns exactly one IVPoint per option on which the solver converges,
carrying impliedVolatility sigma times 100 and moneyness strike over spot,
with the non-convergent options omitted (no placeholder remains), and when
zero options converge it fails with the EmptySurface error instead of
returning an empty collection. -/
theorem surface_builder_output (rows : List NormalizedRow) (spot r q : ℝ)
    (hne : rows ≠ []) :
    (calculate_iv_points rows spot r q = Except.error SurfaceError.emptySurface
        ↔ ∀ row ∈ rows,
            implied_volatility row.mid spot row.strike row.timeToExpiration r q = none)
      ∧ ∀ pts, calculate_iv_points rows spot r q = Except.ok pts →
          pts = surfacePoints rows spot r q ∧ pts ≠ [] := by
  rw [calculate_iv_points_eq]
  constructor
  · constructor
    · intro h
      by_cases hemp : (surfacePoints rows spot r q).isEmpty
      · rw [surfacePoints] at hemp
        intro row hrow
        have h2 := List.filterMap_eq_nil_iff.mp (List.isEmpty_iff.mp hemp) row hrow
        simpa using h2
      · rw [if_neg hemp] at h
        exact Except.noConfusion h
    · intro hall
      have hemp : (surfacePoints rows spot r q).isEmpty := by
        rw [surfacePoints, List.isEmpty_iff, List.filterMap_eq_nil_iff]
        intro row hrow
        rw [hall row hrow]
        rfl
      rw [if_pos hemp]
  · intro pts hok
    by_cases hemp : (surfacePoints rows spot r q).isEmpty
    · rw [if_pos hemp] at hok
      exact Except.noConfusion hok
    · rw [if_neg hemp] at hok
      have hpts := Except.ok.inj hok
      refine ⟨hpts.symm, ?_⟩
      intro hnil
      rw [hpts, hnil] at hemp
      exact hemp rfl

/-- Witness for C4: a one-row input whose row has zero time to expiration; the
solver refuses it, no point converges, and the builder fails with
EmptySurface. -/
theorem surface_builder_output_witness :
    calculate_iv_points [{ strike := 1, mid := 1, timeToExpiration := 0 }] 1 0 0
      = Except.error SurfaceError.emptySurface := by
  have h := surface_builder_output [{ strike := 1, mid := 1, timeToExpiration := 0 }] 1 0 0
    (by simp)
  refine h.1.mpr ?_
  intro row hrow
  have hr : row = { strike := 1, mid := 1, timeToExpiration := 0 } := by
    simpa using hrow
  subst hr
  rw [implied_volatility, if_pos]
  exact Or.inl le_rfl

/-- C9 counterexample: a one-row frame whose row has zero time to expiration;
the solver reports NoConvergence, the inplace dropna removes the row, so after
the call the caller frame is empty and differs from the input: the surface
builder does not leave its input collection unchanged. -/
theorem surface_builder_purity_counterexample :
    (compute_iv_surface [(⟨1, 1, 0, none, none⟩ : OptionRow)] 1 0 0).2
      ≠ [(⟨1, 1, 0, none, none⟩ : OptionRow)] := by
  have hiv : implied_volatility 1 1 1 0 0 0 = none := by
    rw [implied_volatility, if_pos]
    exact Or.inl le_rfl
  have hempty : (compute_iv_surface [(⟨1, 1, 0, none, none⟩ : OptionRow)] 1 0 0).2 = [] := by
    rw [compute_iv_surface]
    rw [compute_iv_surface_frame_eq]
    simp [hiv]
  rw [hempty]
  intro h
  exact List.noConfusion h

/-- C9 amended: the surface builder mutates the caller frame in place: after the
call the caller frame equals the returned frame (they are the same object),
namely the input rows restricted to the convergent ones, each with the
impliedVolatility column set to sigma times 100 and the moneyness column set
to strike over spot; the input frame is consumed, not preserved. -/
theorem surface_builder_mutates_input (options_df : List OptionRow) (spot r q : ℝ) :
    (compute_iv_surface options_df spot r q).2 = (compute_iv_surface options_df spot r q).1
      ∧ (compute_iv_surface options_df spot r q).1
          = options_df.filterMap fun row =>
              (implied_volatility row.mid spot row.strike row.timeToExpiration r q).map
                fun sigma =>
                  { row with
                    impliedVolatility := some (sigma * 100)
                    moneyness := some (row.strike / spot) } := by
  exact ⟨rfl, compute_iv_surface_frame_eq options_df spot r q⟩

/-- C10: whenever the implied-volatility solver returns a numeric value, that
value lies within the search bracket [1e-6, 5]; consequently every
impliedVolatility the surface builder emits lies in [1e-4, 500] when
expressed in percent. -/
theorem solver_bracket_invariant :
    (∀ p S K T r q sigma, implied_volatility p S K T r q = some sigma
        → sigma ∈ Set.Icc (1e-6:ℝ) 5)
      ∧ ∀ rows spot r q pts, calculate_iv_points rows spot r q = Except.ok pts
          → ∀ pt ∈ pts, pt.impliedVolatility ∈ Set.Icc (1e-4:ℝ) 500 := by
  have hfirst : ∀ p S K T r q sigma, implied_volatility p S K T r q = some sigma
      → sigma ∈ Set.Icc (1e-6:ℝ) 5 := by
    intro p S K T r q sigma h
    rw [implied_volatility] at h
    by_cases h1 : T ≤ 0 ∨ p ≤ 0
    · rw [if_pos h1] at h
      exact Option.noConfusion h
    · rw [if_neg h1] at h
      exact (brentq_eq_some _ _ _ _ h).1
  refine ⟨hfirst, ?_⟩
  intro rows spot r q pts hok pt hpt
  rw [calculate_iv_points_eq] at hok
  by_cases hemp : (surfacePoints rows spot r q).isEmpty
  · rw [if_pos hemp] at hok
    exact Except.noConfusion hok
  · rw [if_neg hemp] at hok
    have hpts := Except.ok.inj hok
    rw [← hpts, surfacePoints] at hpt
    obtain ⟨row, hrow, hmap⟩ := List.mem_filterMap.mp hpt
    cases hh : implied_volatility row.mid spot row.strike row.timeToExpiration r q with
    | none =>
      rw [hh] at hmap
      exact Option.noConfusion hmap
    | some sigma =>
      rw [hh] at hmap
      have hpt2 := Option.some.inj hmap
      have hb := hfirst _ _ _ _ _ _ _ hh
      have hiv : pt.impliedVolatility = sigma * 100 := by
        rw [← hpt2]
      constructor
      · have h1 := hb.1
        rw [hiv]
        nlinarith
      · have h2 := hb.2
        rw [hiv]
        nlinarith

/-- Witness for C10: at S = K = T = sigma = 1, r = q = 0 the solver returns
sigma = 1, inside the bracket, and the one-point surface built from that row
carries an impliedVolatility of 100, inside [1e-4, 500]. -/
theorem solver_bracket_invariant_witness :
    (1:ℝ) ∈ Set.Icc (1e-6:ℝ) 5
      ∧ ∀ pt ∈ [(⟨1, bs_call_price 1 1 1 0 1 0, 1, 1 * 100, 1 / 1⟩ : IVPoint)],
          pt.impliedVolatility ∈ Set.Icc (1e-4:ℝ) 500 := by
  have hsolve : implied_volatility (bs_call_price 1 1 1 0 1 0) 1 1 1 0 0 = some 1 :=
    roundtrip_exact 1 1 1 0 0 1 (by norm_num) (by norm_num) (by norm_num) (by norm_num)
      (by norm_num)
  have hok : calculate_iv_points
      [(⟨1, bs_call_price 1 1 1 0 1 0, 1⟩ : NormalizedRow)] 1 0 0
      = Except.ok [(⟨1, bs_call_price 1 1 1 0 1 0, 1, 1 * 100, 1 / 1⟩ : IVPoint)] := by
    rw [calculate_iv_points_eq]
    have hsp : surfacePoints
        [(⟨1, bs_call_price 1 1 1 0 1 0, 1⟩ : NormalizedRow)] 1 0 0
        = [(⟨1, bs_call_price 1 1 1 0 1 0, 1, 1 * 100, 1 / 1⟩ : IVPoint)] := by
      rw [surfacePoints]
      simp [hsolve]
    rw [hsp]
    rfl
  exact ⟨solver_bracket_invariant.1 _ 1 1 1 0 0 1 hsolve,
    solver_bracket_invariant.2 _ 1 0 0 _ hok⟩

/-- C5: the chain normalizer retains exactly the quotes with positive bid and
ask, expiration strictly more than 7 calendar days ahead, and strike inside
the window, each annotated with timeToExpiration = days / 365 and
moneyness = strike / spot; and the result does not depend on the order of the
filter steps. -/
theorem chain_normalizer_output (quotes : List RawQuote) (spot minPct maxPct : ℝ) :
    (∀ o, o ∈ normalizeChain quotes spot minPct maxPct
        ↔ ∃ q ∈ quotes, (0 < q.bid ∧ 0 < q.ask) ∧ 7 < q.expirationDays
            ∧ (spot * (minPct / 100) ≤ q.strike ∧ q.strike ≤ spot * (maxPct / 100))
            ∧ o = annotateQuote spot q)
      ∧ (∀ o ∈ normalizeChain quotes spot minPct maxPct,
          o.timeToExpiration = (o.daysToExpiration : ℝ) / 365
            ∧ o.moneyness = o.strike / spot)
      ∧ normalizeChain quotes spot minPct maxPct
          = normalizeChainAlt quotes spot minPct maxPct := by
  have hmem : ∀ o, o ∈ normalizeChain quotes spot minPct maxPct
      ↔ ∃ q ∈ quotes, (0 < q.bid ∧ 0 < q.ask) ∧ 7 < q.expirationDays
          ∧ (spot * (minPct / 100) ≤ q.strike ∧ q.strike ≤ spot * (maxPct / 100))
          ∧ o = annotateQuote spot q := by
    intro o
    rw [normalizeChain]
    simp only [List.mem_filter, List.mem_map, decide_eq_true_eq]
    constructor
    · rintro ⟨⟨q, ⟨⟨hq, hexp⟩, hbid⟩, rfl⟩, hstrike⟩
      refine ⟨q, hq, hbid, hexp, ?_, rfl⟩
      simpa [annotateQuote] using hstrike
    · rintro ⟨q, hq, hbid, hexp, hstrike, rfl⟩
      refine ⟨⟨q, ⟨⟨hq, hexp⟩, hbid⟩, rfl⟩, ?_⟩
      simpa [annotateQuote] using hstrike
  refine ⟨hmem, ?_, ?_⟩
  · intro o ho
    obtain ⟨q, _, _, _, _, rfl⟩ := (hmem o).mp ho
    exact ⟨rfl, rfl⟩
  · rw [normalizeChain, normalizeChainAlt, List.filter_map, List.filter_filter,
      List.filter_filter, List.filter_filter, List.filter_filter]
    congr 1
    apply List.filter_congr
    intro a _
    rw [Bool.eq_iff_iff]
    simp only [Function.comp_apply, annotateQuote, Bool.and_eq_true, decide_eq_true_eq]
    tauto

lemma linspace_length (a b : ℝ) (n : ℕ) : (linspace a b n).length = n := by
  rw [linspace]
  simp

lemma linspace50_head (a b : ℝ) : (linspace a b 50).head? = some a := by
  rw [linspace, show (50 : ℕ) = 49 + 1 from rfl, List.range_succ_eq_map]
  simp

lemma linspace50_getLast (a b : ℝ) : (linspace a b 50).getLast? = some b := by
  rw [linspace, show (50 : ℕ) = 49 + 1 from rfl, List.range_succ, List.map_append]
  simp only [List.map_cons, List.map_nil, List.getLast?_concat]
  congr 1
  push_cast
  ring

lemma linspace50_getD (a b : ℝ) (i : ℕ) (hi : i < 50) :
    (linspace a b 50).getD i 0 = a + (b - a) * i / 49 := by
  rw [linspace]
  rw [List.getD_eq_getD_get?]
  simp only [List.get?_eq_getElem?, List.getElem?_map, List.getElem?_range hi,
    Option.map_some', Option.getD_some]
  norm_num

/-- C6: for every non-empty point set whose x values are not all identical and
whose y values are not all identical, the interpolator produces a grid over
[min x, max x] times [min y, max y] with 50 linearly spaced samples per axis
(endpoints included), and each node carries the interpolant value where the
interpolant is defined and the arithmetic mean of the input z values where it
is not. -/
theorem grid_interpolator_output (pts : List IVPt) (interp : ℝ → ℝ → Option ℝ)
    (hne : pts ≠ []) (hx : ¬ allSameX pts) (hy : ¬ allSameY pts) :
    ∃ g, interpolateGrid pts interp = Except.ok g
      ∧ g.gridX = linspace (listMin (pts.map IVPt.x)) (listMax (pts.map IVPt.x)) 50
      ∧ g.gridY = linspace (listMin (pts.map IVPt.y)) (listMax (pts.map IVPt.y)) 50
      ∧ g.gridX.length = 50 ∧ g.gridY.length = 50
      ∧ g.gridX.head? = some (listMin (pts.map IVPt.x))
      ∧ g.gridX.getLast? = some (listMax (pts.map IVPt.x))
      ∧ g.gridY.head? = some (listMin (pts.map IVPt.y))
      ∧ g.gridY.getLast? = some (listMax (pts.map IVPt.y))
      ∧ (∀ i, i < 50 → g.gridX.getD i 0
          = listMin (pts.map IVPt.x)
            + (listMax (pts.map IVPt.x) - listMin (pts.map IVPt.x)) * i / 49)
      ∧ (∀ j, j < 50 → g.gridY.getD j 0
          = listMin (pts.map IVPt.y)
            + (listMax (pts.map IVPt.y) - listMin (pts.map IVPt.y)) * j / 49)
      ∧ g.zGrid = g.gridY.map fun y => g.gridX.map fun x => gridNode pts interp x y := by
  rw [interpolateGrid, if_neg (not_or.mpr ⟨hx, hy⟩)]
  refine ⟨_, rfl, rfl, rfl, linspace_length _ _ _, linspace_length _ _ _,
    linspace50_head _ _, linspace50_getLast _ _, linspace50_head _ _,
    linspace50_getLast _ _, ?_, ?_, rfl⟩
  · intro i hi
    exact linspace50_getD _ _ i hi
  · intro j hj
    exact linspace50_getD _ _ j hj

/-- Witness for C6 on the two-point set (0,0,1), (1,1,3) with the everywhere
undefined interpolant. -/
theorem grid_interpolator_output_witness :
    ∃ g, interpolateGrid [(⟨0, 0, 1⟩ : IVPt), ⟨1, 1, 3⟩] (fun _ _ => none) = Except.ok g
      ∧ g.gridX.length = 50 ∧ g.gridY.length = 50 := by
  have hx : ¬ allSameX [(⟨0, 0, 1⟩ : IVPt), ⟨1, 1, 3⟩] := by
    intro h
    have h01 := h ⟨0, 0, 1⟩ (by simp) ⟨1, 1, 3⟩ (by simp)
    norm_num at h01
  have hy : ¬ allSameY [(⟨0, 0, 1⟩ : IVPt), ⟨1, 1, 3⟩] := by
    intro h
    have h01 := h ⟨0, 0, 1⟩ (by simp) ⟨1, 1, 3⟩ (by simp)
    norm_num at h01
  obtain ⟨g, hok, _, _, hlx, hly, _⟩ :=
    grid_interpolator_output [(⟨0, 0, 1⟩ : IVPt), ⟨1, 1, 3⟩] (fun _ _ => none)
      (by simp) hx hy
  exact ⟨g, hok, hlx, hly⟩

/-- C7: whenever all x values are identical or all y values are identical, the
grid interpolator fails with the DegenerateSurface error and produces no
grid. -/
theorem grid_interpolator_degenerate (pts : List IVPt) (interp : ℝ → ℝ → Option ℝ)
    (h : allSameX pts ∨ allSameY pts) :
    interpolateGrid pts interp = Except.error GridError.degenerateSurface := by
  rw [interpolateGrid, if_pos h]

/-- Witness for C7: three points sharing one timeToExpiration yield
DegenerateSurface. -/
theorem grid_interpolator_degenerate_witness :
    interpolateGrid [(⟨1, 0, 5⟩ : IVPt), ⟨1, 1, 6⟩, ⟨1, 2, 7⟩] (fun _ _ => none)
      = Except.error GridError.degenerateSurface := by
  apply grid_interpolator_degenerate
  left
  intro p hp p2 hp2
  simp only [List.mem_cons, List.not_mem_nil, or_false] at hp hp2
  rcases hp with rfl | rfl | rfl <;> rcases hp2 with rfl | rfl | rfl <;> rfl

end
